import Mathlib

/-!
Verification of the district-matching core of this repository
(simple_district_analysis.py and district_matching_analysis.py).

Strings are modelled as lists of characters (Python str is a sequence of
code points).  Python library functions used by the code (str.strip,
str.replace, str.lower, difflib.SequenceMatcher.ratio, dict assignment,
pandas left merge) are embedded faithfully below; similarity scores are
modelled as exact rationals.
-/

namespace DistrictMatch

/-! ### Python string primitives -/

/-- Characters for which Python str.isspace() holds (the set stripped by
str.strip()). -/
def pySpaceChars : List Char :=
  [' ', '\t', '\n', '\r', '\x0B', '\x0C', '\x1C', '\x1D', '\x1E', '\x1F', '\u0085', '\u00A0', '\u1680', '\u2000', '\u2001', '\u2002', '\u2003', '\u2004', '\u2005', '\u2006', '\u2007', '\u2008', '\u2009', '\u200A', '\u2028', '\u2029', '\u202F', '\u205F', '\u3000']

def isPySpace (c : Char) : Bool := pySpaceChars.contains c

def pyStripLead (s : List Char) : List Char := s.dropWhile isPySpace

def pyStripTrail (s : List Char) : List Char := (s.reverse.dropWhile isPySpace).reverse

/-- Python str.strip(): remove leading and trailing whitespace. -/
def pyStrip (s : List Char) : List Char := pyStripTrail (pyStripLead s)

/-- Python str.replace(old, new) (for nonempty old): scan left to right,
replacing non-overlapping occurrences; the text inserted for a replacement is
not rescanned.  The first argument is fuel; each step consumes at least one
character of the scanned string, so fuel = length of the scanned string
suffices. -/
def pyReplaceF (old new : List Char) : ℕ → List Char → List Char
  | _, [] => []
  | 0, s => s
  | fuel + 1, c :: rest =>
    if old ≠ [] ∧ old.isPrefixOf (c :: rest) then
      new ++ pyReplaceF old new fuel ((c :: rest).drop old.length)
    else
      c :: pyReplaceF old new fuel rest

def pyReplace (s old new : List Char) : List Char := pyReplaceF old new s.length s

/-- Whether pat occurs as a contiguous substring of s. -/
def hasSub (pat : List Char) : List Char → Bool
  | [] => pat.isPrefixOf []
  | c :: rest => pat.isPrefixOf (c :: rest) || hasSub pat rest

/-- The twelve tokens removed by clean_district_name, in source order:
name.replace(' tumani','').replace(' district','').replace(' District','')
    .replace(' shahri','').replace(' city','').replace(' City','')
    .replace('Respublikasi','').replace('Республика','').replace('Republic of','')
    .replace('Ўзбекистон','').replace('Узбекистан','').replace('Uzbekistan',''). -/
def stripTokens : List (List Char) :=
  [" tumani".toList, " district".toList, " District".toList,
   " shahri".toList, " city".toList, " City".toList,
   "Respublikasi".toList, "Республика".toList, "Republic of".toList,
   "Ўзбекистон".toList, "Узбекистан".toList, "Uzbekistan".toList]

def removeTokens (s : List Char) : List Char :=
  stripTokens.foldl (fun acc t => pyReplace acc t []) s

/-- clean_district_name from simple_district_analysis.py: the falsy guard
(if not name: return "") followed by strip, the twelve replaces, and a final
strip. -/
def clean_district_name (name : List Char) : List Char :=
  if name = [] then [] else pyStrip (removeTokens (pyStrip name))

/-- clean_district_name from district_matching_analysis.py: the guard is
pd.isna(name), which is False for every string (including the empty string),
so every string goes through strip, the twelve replaces, and a final strip. -/
def clean_district_name_pd (name : List Char) : List Char :=
  pyStrip (removeTokens (pyStrip name))

/-- Python str.lower(), character-wise, covering the Latin and Cyrillic
ranges that occur in the data (other characters are unchanged). -/
def pyLowerChar (c : Char) : Char :=
  if 'A' ≤ c ∧ c ≤ 'Z' then Char.ofNat (c.toNat + 32)
  else if 0x410 ≤ c.toNat ∧ c.toNat ≤ 0x42F then Char.ofNat (c.toNat + 0x20)
  else if 0x400 ≤ c.toNat ∧ c.toNat ≤ 0x40F then Char.ofNat (c.toNat + 0x50)
  else c

def pyLower (s : List Char) : List Char := s.map pyLowerChar

/-! ### difflib.SequenceMatcher(None, a, b).ratio()

Model of CPython difflib with isjunk = None and autojunk = True (the
defaults used by the source):
- b2j maps each character to the ascending list of its positions in b;
  when len(b) >= 200, characters occurring more than len(b)/100 + 1 times
  (popular characters) are dropped from b2j entirely;
- find_longest_match runs the chain-length dynamic programming over a
  window, breaking ties towards the smallest a-position, then the smallest
  b-position, then extends the winning block outwards while characters
  match (with isjunk = None the junk set is empty, so the two junk
  extension loops of CPython never run, and the two non-junk extension
  loops extend while the ends match; they are rendered below as common
  suffix / common run lengths of the flanking slices);
- get_matching_blocks recurses on the sub-windows left and right of the
  winning block (CPython also merges adjacent blocks and appends a
  terminal zero-size block; neither changes the sum of block sizes, which
  is all ratio() reads);
- ratio() = 2 * (sum of block sizes) / (len(a) + len(b)), and 1.0 when
  both inputs are empty (the guard in difflib._calculate_ratio).
-/

/-- Character of s at position i (Python's a[i]; positions used below are
always in range, the default is never read by in-range accesses). -/
def charAt (s : List Char) (i : ℕ) : Char := s.getD i '\x00'

/-- Ascending list of positions of character c in b. -/
def occList (b : List Char) (c : Char) : List ℕ :=
  (List.range b.length).filter fun j => charAt b j = c

/-- b2j with the autojunk rule: popular characters of a long second sequence
are dropped. -/
def b2j (b : List Char) (c : Char) : List ℕ :=
  if 200 ≤ b.length ∧ b.length / 100 + 1 < (occList b c).length then []
  else occList b c

/-- Length of the longest common initial run of two strings. -/
def commonRunLen : List Char → List Char → ℕ
  | c :: cs, d :: ds => if c = d then commonRunLen cs ds + 1 else 0
  | _, _ => 0

/-- Length of the longest common final run of two strings. -/
def commonTailLen (u v : List Char) : ℕ := commonRunLen u.reverse v.reverse

/-- The substring s[lo:hi] (Python slice for lo ≤ hi ≤ len s). -/
def slice (s : List Char) (lo hi : ℕ) : List Char := (s.take hi).drop lo

/-- Inner loop of find_longest_match for one a-position i: walk the
(ascending, window-filtered) occurrence list of a[i], building the new
chain-length row and updating the best block on strict improvement.
j2l is the previous row (j2len in CPython; absent keys read as 0,
j2len.get(-1, 0) is the j = 0 guard). -/
def flmIn (i : ℕ) (j2l : ℕ → ℕ) :
    List ℕ → ((ℕ → ℕ) × ℕ × ℕ × ℕ) → ((ℕ → ℕ) × ℕ × ℕ × ℕ)
  | [], st => st
  | j :: js, (nj, bi, bj, bs) =>
    let k := (if j = 0 then 0 else j2l (j - 1)) + 1
    let nj2 := fun j2 => if j2 = j then k else nj j2
    if bs < k then flmIn i j2l js (nj2, i + 1 - k, j + 1 - k, k)
    else flmIn i j2l js (nj2, bi, bj, bs)

/-- The positions scanned by (for j in b2j.get(a[i], []): if j < blo:
continue; if j >= bhi: break): the occurrence list is ascending, so the
break is equivalent to filtering the window. -/
def jList (a b : List Char) (blo bhi i : ℕ) : List ℕ :=
  (b2j b (charAt a i)).filter fun j => blo ≤ j ∧ j < bhi

/-- Outer loop of find_longest_match over the a-positions of the window. -/
def flmRows (a b : List Char) (blo bhi : ℕ) :
    List ℕ → (ℕ → ℕ) → ℕ × ℕ × ℕ → ℕ × ℕ × ℕ
  | [], _, best => best
  | i :: is, j2l, (bi, bj, bs) =>
    let r := flmIn i j2l (jList a b blo bhi i) (fun _ => 0, bi, bj, bs)
    flmRows a b blo bhi is r.1 r.2

/-- The two non-junk extension loops of find_longest_match: first extend
leftwards while the characters before the block match, then rightwards
while the characters after it match. -/
def extendMatch (a b : List Char) (alo ahi blo bhi bi bj bs : ℕ) : ℕ × ℕ × ℕ :=
  let e1 := commonTailLen (slice a alo bi) (slice b blo bj)
  let bi1 := bi - e1
  let bj1 := bj - e1
  let bs1 := bs + e1
  let e2 := commonRunLen (slice a (bi1 + bs1) ahi) (slice b (bj1 + bs1) bhi)
  (bi1, bj1, bs1 + e2)

/-- find_longest_match(alo, ahi, blo, bhi). -/
def find_longest_match (a b : List Char) (alo ahi blo bhi : ℕ) : ℕ × ℕ × ℕ :=
  let d := flmRows a b blo bhi (List.range' alo (ahi - alo)) (fun _ => 0) (alo, blo, 0)
  extendMatch a b alo ahi blo bhi d.1 d.2.1 d.2.2

/-- get_matching_blocks recursion over a window, fuelled; fuel = size of the
a-window suffices since a nonempty winning block strictly shrinks both
sub-windows. -/
def matchingBlocksF (a b : List Char) : ℕ → ℕ → ℕ → ℕ → ℕ → List (ℕ × ℕ × ℕ)
  | 0, _, _, _, _ => []
  | fuel + 1, alo, ahi, blo, bhi =>
    let m := find_longest_match a b alo ahi blo bhi
    if m.2.2 = 0 then []
    else
      matchingBlocksF a b fuel alo m.1 blo m.2.1 ++
        m :: matchingBlocksF a b fuel (m.1 + m.2.2) ahi (m.2.1 + m.2.2) bhi

def matchingBlocks (a b : List Char) : List (ℕ × ℕ × ℕ) :=
  matchingBlocksF a b a.length 0 a.length 0 b.length

def blockSizeSum (l : List (ℕ × ℕ × ℕ)) : ℕ := (l.map fun m => m.2.2).sum

/-- SequenceMatcher(None, a, b).ratio() as an exact rational. -/
def pyRatio (a b : List Char) : ℚ :=
  if a.length + b.length = 0 then 1
  else (2 * blockSizeSum (matchingBlocks a b) : ℚ) / ((a.length + b.length : ℕ) : ℚ)

/-- The score computed inside find_best_match:
SequenceMatcher(None, cleaned_name.lower(), cleaned_ref.lower()).ratio(). -/
def simScore (src cand : List Char) : ℚ :=
  pyRatio (pyLower (clean_district_name src)) (pyLower (clean_district_name cand))

/-! ### find_best_match -/

/-- The candidate loop of find_best_match: state is (best_match, best_score),
initially (None, 0); a candidate displaces the best only when
score > best_score and score >= threshold. -/
def fbmLoop (src : List Char) (t : ℚ) :
    List (List Char) → Option (List Char) × ℚ → Option (List Char) × ℚ
  | [], st => st
  | c :: cs, (bm, bs) =>
    let s := simScore src c
    if bs < s ∧ t ≤ s then fbmLoop src t cs (some c, s)
    else fbmLoop src t cs (bm, bs)

/-- find_best_match(district_name, reference_names, threshold): returns
(best_match, best_score). -/
def find_best_match (src : List Char) (cands : List (List Char)) (t : ℚ) :
    Option (List Char) × ℚ :=
  fbmLoop src t cands (none, 0)

/-! ### Reference index and merge -/

/-- A reference row, projected to the five columns the merge reads. -/
structure RefRow where
  name_uz : List Char
  name_en : List Char
  name_ru : List Char
  code : List Char
  region_id : List Char
deriving DecidableEq

/-- The attribute record stored in ref_lookup for a reference row. -/
def refAttrs (r : RefRow) : List Char × List Char × List Char × List Char :=
  (r.name_en, r.name_ru, r.code, r.region_id)

/-- ref_lookup built by the dict-assignment loop
(for row in ref_data: ref_lookup[row[name_uz]] = {...}). -/
def ref_lookup (rows : List RefRow) :
    List Char → Option (List Char × List Char × List Char × List Char) :=
  rows.foldl
    (fun acc r => fun k => if k = r.name_uz then some (refAttrs r) else acc k)
    (fun _ => none)

/-- A match record produced by analyze_district_matching. -/
structure MatchRec where
  main_district : List Char
  reference_district : List Char
  match_score : ℚ
deriving DecidableEq

/-- district_mapping = {m['main_district']: m['reference_district'] for m in
matches} (dict comprehension: later entries overwrite earlier ones). -/
def district_mapping (ms : List MatchRec) : List Char → Option (List Char) :=
  ms.foldl
    (fun acc m => fun k => if k = m.main_district then some m.reference_district else acc k)
    (fun _ => none)

/-- The main-data district of a row (row[main_klassifikator_idx]). -/
def rowKey (kIdx : ℕ) (row : List (List Char)) : List Char := row.getD kIdx []

/-- One iteration of the merge loop of simple_district_analysis.py: the
mapped reference district must be truthy (nonempty) and present in
ref_lookup, otherwise five empty strings are appended. -/
def mergeRow (kIdx : ℕ) (mapping : List Char → Option (List Char))
    (lookup : List Char → Option (List Char × List Char × List Char × List Char))
    (row : List (List Char)) : List (List Char) :=
  match mapping (rowKey kIdx row) with
  | some rd =>
    if rd ≠ [] then
      match lookup rd with
      | some a => row ++ [rd, a.1, a.2.1, a.2.2.1, a.2.2.2]
      | none => row ++ [[], [], [], [], []]
    else row ++ [[], [], [], [], []]
  | none => row ++ [[], [], [], [], []]

/-- The merge loop of create_merged_dataset (simple_district_analysis.py):
one output row per main row, in order. -/
def merge_rows (kIdx : ℕ) (mapping : List Char → Option (List Char))
    (lookup : List Char → Option (List Char × List Char × List Char × List Char))
    (mainRows : List (List (List Char))) : List (List (List Char)) :=
  mainRows.map (mergeRow kIdx mapping lookup)

/-- create_merged_dataset (simple_district_analysis.py) after the matches
have been computed: with no matches it prints a diagnostic and returns
without building anything (modelled as Except.error of the printed
message); otherwise it builds the mapping, the reference lookup, and the
merged rows. -/
def create_merged_dataset (ms : List MatchRec) (kIdx : ℕ)
    (mainRows : List (List (List Char))) (refRows : List RefRow) :
    Except (List Char) (List (List (List Char))) :=
  if ms = [] then
    Except.error "No matches found. Cannot create merged dataset.".toList
  else
    Except.ok (merge_rows kIdx (district_mapping ms) (ref_lookup refRows) mainRows)

/-- One main row's contribution to the pandas left merge of
district_matching_analysis.py: main_df['reference_district'] is the mapped
value (NaN when the district is unmatched, and NaN joins nothing), and a
left merge on reference_district = name_uz emits one output row per
matching reference row, or a single all-NaN-extended row when none
matches.  The output keeps the original cells, the reference_district
value, and the matched reference row (none models the five NaN columns). -/
def pd_merge_row (kIdx : ℕ) (mapping : List Char → Option (List Char))
    (refRows : List RefRow) (row : List (List Char)) :
    List (List (List Char) × Option (List Char) × Option RefRow) :=
  match mapping (rowKey kIdx row) with
  | none => [(row, none, none)]
  | some rd =>
    match refRows.filter (fun r => decide (r.name_uz = rd)) with
    | [] => [(row, some rd, none)]
    | m :: ms => (m :: ms).map fun r => (row, some rd, some r)

/-- The pandas left merge of district_matching_analysis.py over all main
rows (left row order is preserved). -/
def pd_merge (kIdx : ℕ) (mapping : List Char → Option (List Char))
    (refRows : List RefRow) (mainRows : List (List (List Char))) :
    List (List (List Char) × Option (List Char) × Option RefRow) :=
  mainRows.flatMap (pd_merge_row kIdx mapping refRows)

/-- The five canonical columns of a pandas merged row as written by to_csv:
NaN renders as the empty field. -/
def renderRefCols (m : Option RefRow) : List (List Char) :=
  match m with
  | some r => [r.name_uz, r.name_en, r.name_ru, r.code, r.region_id]
  | none => [[], [], [], [], []]

/-! ### Reference index lemmas -/

lemma ref_lookup_aux (rows : List RefRow)
    (acc : List Char → Option (List Char × List Char × List Char × List Char))
    (k : List Char) :
    (rows.foldl
        (fun acc r => fun k2 => if k2 = r.name_uz then some (refAttrs r) else acc k2)
        acc) k
      = ((rows.reverse.find? fun r => decide (r.name_uz = k)).map refAttrs).or (acc k) := by
  induction rows generalizing acc with
  | nil => simp
  | cons r rs ih =>
    rw [List.foldl_cons, ih, List.reverse_cons, List.find?_append]
    cases hf : rs.reverse.find? fun r => decide (r.name_uz = k) with
    | some r2 => simp [hf]
    | none =>
      simp only [hf, Option.map_none, Option.none_or, Option.none_orElse]
      rw [List.find?_singleton]
      by_cases h : r.name_uz = k
      · simp [h]
      · have hk : ¬ k = r.name_uz := fun hk => h hk.symm
        simp [h, hk]

lemma ref_lookup_eq_find (rows : List RefRow) (k : List Char) :
    ref_lookup rows k
      = (rows.reverse.find? fun r => decide (r.name_uz = k)).map refAttrs := by
  rw [ref_lookup, ref_lookup_aux]
  simp

lemma ref_lookup_none_iff (rows : List RefRow) (k : List Char) :
    ref_lookup rows k = none ↔ rows.filter (fun r => decide (r.name_uz = k)) = [] := by
  rw [ref_lookup_eq_find]
  constructor
  · intro h
    rw [List.filter_eq_nil_iff]
    intro r hr
    cases hf : rows.reverse.find? fun r => decide (r.name_uz = k) with
    | some r2 => rw [hf] at h; simp at h
    | none =>
      have := List.find?_eq_none.mp hf r (List.mem_reverse.mpr hr)
      simpa using this
  · intro h
    have hf : rows.reverse.find? (fun r => decide (r.name_uz = k)) = none := by
      rw [List.find?_eq_none]
      intro r hr
      have := List.filter_eq_nil_iff.mp h r (List.mem_reverse.mp hr)
      simpa using this
    rw [hf]
    rfl

/-! ### Merge-shape lemmas -/

lemma mergeRow_shape (kIdx : ℕ) (mapping : List Char → Option (List Char))
    (lookup : List Char → Option (List Char × List Char × List Char × List Char))
    (row : List (List Char)) :
    ∃ tail : List (List Char),
      mergeRow kIdx mapping lookup row = row ++ tail ∧ tail.length = 5 := by
  unfold mergeRow
  split
  · split
    · split
      · exact ⟨_, rfl, rfl⟩
      · exact ⟨_, rfl, rfl⟩
    · exact ⟨_, rfl, rfl⟩
  · exact ⟨_, rfl, rfl⟩

lemma pd_merge_row_single (kIdx : ℕ) (mapping : List Char → Option (List Char))
    (refRows : List RefRow) (row : List (List Char))
    (hnd : ∀ rd, (refRows.filter fun r => decide (r.name_uz = rd)).length ≤ 1) :
    ∃ rd rr, pd_merge_row kIdx mapping refRows row = [(row, rd, rr)] := by
  cases hm : mapping (rowKey kIdx row) with
  | none => exact ⟨none, none, by simp [pd_merge_row, hm]⟩
  | some rd =>
    cases hf : refRows.filter fun r => decide (r.name_uz = rd) with
    | nil => exact ⟨some rd, none, by simp [pd_merge_row, hm, hf]⟩
    | cons m ms =>
      have h1 := hnd rd
      rw [hf] at h1
      have hms : ms = [] := by
        cases ms with
        | nil => rfl
        | cons x xs => simp at h1
      subst hms
      exact ⟨some rd, some m, by simp [pd_merge_row, hm, hf]⟩

lemma pd_merge_shape (kIdx : ℕ) (mapping : List Char → Option (List Char))
    (refRows : List RefRow) (mainRows : List (List (List Char)))
    (hnd : ∀ rd, (refRows.filter fun r => decide (r.name_uz = rd)).length ≤ 1) :
    (pd_merge kIdx mapping refRows mainRows).length = mainRows.length ∧
      ∀ i (h : i < mainRows.length),
        ∃ p, (pd_merge kIdx mapping refRows mainRows)[i]? = some p ∧
          p.1 = mainRows[i] := by
  induction mainRows with
  | nil => exact ⟨rfl, fun i h => absurd h (Nat.not_lt_zero i)⟩
  | cons row rest ih =>
    obtain ⟨rd, rr, hrow⟩ := pd_merge_row_single kIdx mapping refRows row hnd
    have hcons : pd_merge kIdx mapping refRows (row :: rest)
        = (row, rd, rr) :: pd_merge kIdx mapping refRows rest := by
      rw [pd_merge, List.flatMap_cons, hrow]
      rfl
    obtain ⟨ihlen, ihget⟩ := ih
    constructor
    · rw [hcons, List.length_cons, ihlen, List.length_cons]
    · intro i h
      cases i with
      | zero => exact ⟨(row, rd, rr), by rw [hcons]; simp, rfl⟩
      | succ n =>
        obtain ⟨p, hp, hp1⟩ := ihget n (Nat.lt_of_succ_lt_succ h)
        refine ⟨p, ?_, ?_⟩
        · rw [hcons]
          simpa using hp
        · simpa using hp1

/-! ### Claim theorems: index, abort, merge shape, normalizer agreement -/

/-- C8: the reference index maps each raw name to the attributes of the last
reference row bearing that name (later rows overwrite earlier ones). -/
theorem ref_lookup_last_write_wins (rows : List RefRow) (name : List Char) :
    ref_lookup rows name
      = (rows.reverse.find? fun r => decide (r.name_uz = name)).map refAttrs :=
  ref_lookup_eq_find rows name

/-- C9: with zero matches, create_merged_dataset emits the diagnostic and
returns without producing a merged dataset. -/
theorem create_merged_dataset_no_matches (kIdx : ℕ)
    (mainRows : List (List (List Char))) (refRows : List RefRow) :
    create_merged_dataset [] kIdx mainRows refRows
      = Except.error "No matches found. Cannot create merged dataset.".toList := rfl

/-- C10: the two implementations of the name normalizer agree on every
string. -/
theorem clean_district_name_impls_agree (name : List Char) :
    clean_district_name name = clean_district_name_pd name := by
  by_cases h : name = []
  · subst h; rfl
  · simp [clean_district_name, clean_district_name_pd, h]

/-- Sample fixtures for witnesses and counterexamples. -/
def sampleRefX1 : RefRow :=
  { name_uz := "X".toList, name_en := "e1".toList, name_ru := "r1".toList,
    code := "10".toList, region_id := "1".toList }

def sampleRefX2 : RefRow :=
  { name_uz := "X".toList, name_en := "e2".toList, name_ru := "r2".toList,
    code := "11".toList, region_id := "2".toList }

def sampleMatchDX : MatchRec :=
  { main_district := "d".toList, reference_district := "X".toList, match_score := 1 }

/-- C2 (amended): the csv merge always emits exactly one output row per
primary row, in order (each output row is the primary row plus a five-cell
tail); the pandas left merge does the same provided no reference raw name
occurs in more than one reference row. -/
theorem merged_row_count_preserved (kIdx : ℕ)
    (mapping : List Char → Option (List Char))
    (lookup : List Char → Option (List Char × List Char × List Char × List Char))
    (refRows : List RefRow) (mainRows : List (List (List Char)))
    (hnd : ∀ rd, (refRows.filter fun r => decide (r.name_uz = rd)).length ≤ 1) :
    ((merge_rows kIdx mapping lookup mainRows).length = mainRows.length ∧
      ∀ i (h : i < mainRows.length), ∃ tail, tail.length = 5 ∧
        (merge_rows kIdx mapping lookup mainRows)[i]? = some (mainRows[i] ++ tail)) ∧
    ((pd_merge kIdx mapping refRows mainRows).length = mainRows.length ∧
      ∀ i (h : i < mainRows.length), ∃ p,
        (pd_merge kIdx mapping refRows mainRows)[i]? = some p ∧
          p.1 = mainRows[i]) := by
  refine ⟨⟨?_, ?_⟩, pd_merge_shape kIdx mapping refRows mainRows hnd⟩
  · simp [merge_rows]
  · intro i h
    obtain ⟨tail, htail, hlen⟩ := mergeRow_shape kIdx mapping lookup mainRows[i]
    refine ⟨tail, hlen, ?_⟩
    rw [merge_rows, List.getElem?_map, List.getElem?_eq_getElem h]
    simp [htail]

/-- C2 (counterexample): with a duplicated raw name in the reference table,
the pandas left merge of district_matching_analysis.py emits two output rows
for a single primary row, so the merged row count exceeds the primary row
count. -/
theorem pd_merge_duplicate_key_cex :
    (pd_merge 0 (district_mapping [sampleMatchDX]) [sampleRefX1, sampleRefX2]
        [["d".toList]]).length
      ≠ ([["d".toList]] : List (List (List Char))).length := by decide

/-- C2 (witness): the amended theorem applied to a one-row primary dataset
and a duplicate-free reference table. -/
theorem merged_row_count_preserved_witness :
    (merge_rows 0 (district_mapping [sampleMatchDX]) (ref_lookup [sampleRefX1])
        [["d".toList]]).length = 1 ∧
    (pd_merge 0 (district_mapping [sampleMatchDX]) [sampleRefX1]
        [["d".toList]]).length = 1 := by
  have h := merged_row_count_preserved 0 (district_mapping [sampleMatchDX])
    (ref_lookup [sampleRefX1]) [sampleRefX1] [["d".toList]]
    (by intro rd; by_cases hx : sampleRefX1.name_uz = rd <;> simp [hx])
  exact ⟨h.1.1, h.2.1⟩

/-- C7: a primary row that is unmatched, or whose matched name is absent
from the reference index, gets exactly five empty canonical columns from the
csv merge, and the all-NaN canonical side (rendered by to_csv as five empty
fields) from the pandas merge — never a partial or fabricated set. -/
theorem unmatched_rows_blank (kIdx : ℕ) (mapping : List Char → Option (List Char))
    (refRows : List RefRow) (row : List (List Char))
    (h : mapping (rowKey kIdx row) = none ∨
      ∃ rd, mapping (rowKey kIdx row) = some rd ∧ ref_lookup refRows rd = none) :
    mergeRow kIdx mapping (ref_lookup refRows) row = row ++ [[], [], [], [], []] ∧
    pd_merge_row kIdx mapping refRows row
      = [(row, mapping (rowKey kIdx row), none)] ∧
    renderRefCols none = [[], [], [], [], []] := by
  refine ⟨?_, ?_, rfl⟩
  · rcases h with h | ⟨rd, hm, hl⟩
    · simp [mergeRow, h]
    · simp only [mergeRow, hm, hl]
      split <;> rfl
  · rcases h with h | ⟨rd, hm, hl⟩
    · simp [pd_merge_row, h]
    · have hf := (ref_lookup_none_iff refRows rd).mp hl
      simp [pd_merge_row, hm, hf]

/-- C7 (witness): a row with an unmatched district name receives five empty
canonical columns. -/
theorem unmatched_rows_blank_witness :
    district_mapping [] (rowKey 0 ["d".toList]) = none ∧
    mergeRow 0 (district_mapping []) (ref_lookup []) ["d".toList]
      = ["d".toList] ++ [[], [], [], [], []] :=
  ⟨rfl, (unmatched_rows_blank 0 (district_mapping []) [] ["d".toList] (Or.inl rfl)).1⟩

/-! ### Normalizer lemmas (strip and replace) -/

lemma pyReplaceF_of_no_sub (old new : List Char) :
    ∀ (s : List Char) (fuel : ℕ), hasSub old s = false →
      pyReplaceF old new fuel s = s := by
  intro s
  induction s with
  | nil => intro fuel _; cases fuel <;> rfl
  | cons c rest ih =>
    intro fuel h
    simp only [hasSub, Bool.or_eq_false_iff] at h
    obtain ⟨h1, h2⟩ := h
    cases fuel with
    | zero => rfl
    | succ fuel => simp [pyReplaceF, h1, ih fuel h2]

lemma pyReplace_of_no_sub (s old new : List Char) (h : hasSub old s = false) :
    pyReplace s old new = s :=
  pyReplaceF_of_no_sub old new s s.length h

lemma foldl_replace_id (ts : List (List Char)) (s : List Char)
    (h : ∀ t ∈ ts, hasSub t s = false) :
    ts.foldl (fun acc t => pyReplace acc t []) s = s := by
  induction ts with
  | nil => rfl
  | cons t ts ih =>
    rw [List.foldl_cons, pyReplace_of_no_sub s t [] (h t (List.mem_cons_self t ts))]
    exact ih fun t2 ht2 => h t2 (List.mem_cons_of_mem t ht2)

lemma removeTokens_of_no_sub (s : List Char)
    (h : ∀ t ∈ stripTokens, hasSub t s = false) : removeTokens s = s :=
  foldl_replace_id stripTokens s h

lemma dropWhile_idem (p : Char → Bool) (l : List Char) :
    (l.dropWhile p).dropWhile p = l.dropWhile p := by
  induction l with
  | nil => rfl
  | cons a l ih => by_cases h : p a <;> simp [List.dropWhile_cons, h, ih]

lemma dropWhile_take_of_fix (p : Char → Bool) (u : List Char) (m : ℕ)
    (h : u.dropWhile p = u) : (u.take m).dropWhile p = u.take m := by
  cases u with
  | nil => simp
  | cons a l =>
    have ha : p a = false := by
      by_cases hpa : p a
      · rw [List.dropWhile_cons, if_pos hpa] at h
        have := congrArg List.length h
        simp only [List.length_cons] at this
        have hle := (List.dropWhile_sublist (l := l) p).length_le
        omega
      · simpa using hpa
    cases m with
    | zero => simp
    | succ m => simp [List.dropWhile_cons, ha]

lemma pyStripTrail_isTake (u : List Char) : ∃ m, pyStripTrail u = u.take m := by
  refine ⟨(u.reverse.dropWhile isPySpace).reverse.length, ?_⟩
  set d := (u.reverse.dropWhile isPySpace).reverse with hd
  have hu : u = d ++ (u.reverse.takeWhile isPySpace).reverse := by
    calc u = u.reverse.reverse := (List.reverse_reverse u).symm
    _ = (u.reverse.takeWhile isPySpace ++ u.reverse.dropWhile isPySpace).reverse := by
        rw [List.takeWhile_append_dropWhile]
    _ = d ++ (u.reverse.takeWhile isPySpace).reverse := by
        rw [List.reverse_append]
  rw [pyStripTrail]
  conv_rhs => rw [hu]
  rw [← hd, List.take_left]

lemma pyStripTrail_idem (u : List Char) :
    pyStripTrail (pyStripTrail u) = pyStripTrail u := by
  unfold pyStripTrail
  rw [List.reverse_reverse, dropWhile_idem]

lemma pyStripLead_of_trail (u : List Char) (h : u.dropWhile isPySpace = u) :
    pyStripLead (pyStripTrail u) = pyStripTrail u := by
  obtain ⟨m, hm⟩ := pyStripTrail_isTake u
  rw [hm]
  exact dropWhile_take_of_fix isPySpace u m h

lemma pyStrip_idem (s : List Char) : pyStrip (pyStrip s) = pyStrip s := by
  unfold pyStrip
  rw [pyStripLead_of_trail (pyStripLead s) (dropWhile_idem isPySpace s),
    pyStripTrail_idem]

/-- C3 (counterexample): the normalizer is not idempotent.  Removing the
first occurrence of " tumani" from "a tuma tumanini" splices the surrounding
text into a fresh " tumani" occurrence (one replace pass does not rescan the
junction), so a second application of clean_district_name strips further. -/
theorem clean_not_idempotent_cex :
    clean_district_name "a tuma tumanini".toList = "a tumani".toList ∧
    clean_district_name (clean_district_name "a tuma tumanini".toList) = "a".toList ∧
    clean_district_name (clean_district_name "a tuma tumanini".toList)
      ≠ clean_district_name "a tuma tumanini".toList := by
  refine ⟨by decide, by decide, by decide⟩

/-- C3 (amended): the normalizer is idempotent on every input whose cleaned
form contains no occurrence of any removal token (this covers all inputs
where one cleaning pass cannot splice together a fresh token occurrence). -/
theorem clean_idempotent_of_tokenless (x : List Char)
    (h : ∀ t ∈ stripTokens, hasSub t (clean_district_name x) = false) :
    clean_district_name (clean_district_name x) = clean_district_name x := by
  by_cases hx : clean_district_name x = []
  · rw [hx]
    simp [clean_district_name]
  · have hx2 : x ≠ [] := by
      intro he
      apply hx
      rw [he]
      simp [clean_district_name]
    have hclean : clean_district_name x = pyStrip (removeTokens (pyStrip x)) := by
      rw [clean_district_name, if_neg hx2]
    have hstrip : pyStrip (clean_district_name x) = clean_district_name x := by
      rw [hclean, pyStrip_idem]
    rw [clean_district_name, if_neg hx, hstrip, removeTokens_of_no_sub _ h, hstrip]

/-- C3 (witness): the amended idempotence applied to a token-free name. -/
theorem clean_idempotent_of_tokenless_witness :
    (∀ t ∈ stripTokens, hasSub t (clean_district_name "Andijon".toList) = false) ∧
    clean_district_name (clean_district_name "Andijon".toList)
      = clean_district_name "Andijon".toList :=
  ⟨by decide, clean_idempotent_of_tokenless "Andijon".toList (by decide)⟩

/-! ### find_best_match selection lemmas -/

lemma fbmLoop_append (src : List Char) (t : ℚ) (xs ys : List (List Char))
    (st : Option (List Char) × ℚ) :
    fbmLoop src t (xs ++ ys) st = fbmLoop src t ys (fbmLoop src t xs st) := by
  induction xs generalizing st with
  | nil => rfl
  | cons c cs ih =>
    obtain ⟨bm, bs⟩ := st
    by_cases h : bs < simScore src c ∧ t ≤ simScore src c <;>
      simp [fbmLoop, h, ih]

/-- Complete case analysis of the find_best_match loop: either no candidate
ever triggers an update (the result is (None, 0)), or the result is the
first candidate attaining the maximum score, with all earlier candidates
scoring strictly below it and all later ones at most it. -/
lemma find_best_match_spec (src : List Char) (t : ℚ) (cands : List (List Char)) :
    (find_best_match src cands t = (none, 0) ∧
      ∀ q ∈ cands, ¬(0 < simScore src q ∧ t ≤ simScore src q)) ∨
    (∃ c pre post, find_best_match src cands t = (some c, simScore src c) ∧
      t ≤ simScore src c ∧ cands = pre ++ c :: post ∧
      (∀ p ∈ pre, simScore src p < simScore src c) ∧
      (∀ q ∈ post, simScore src q ≤ simScore src c)) := by
  induction cands using List.reverseRecOn with
  | nil => exact Or.inl ⟨rfl, by simp⟩
  | append_singleton cs d ih =>
    have happ : find_best_match src (cs ++ [d]) t
        = fbmLoop src t [d] (find_best_match src cs t) :=
      fbmLoop_append src t cs [d] (none, 0)
    rcases ih with ⟨h1, h2⟩ | ⟨c, pre, post, h1, ht2, hdec, hpre, hpost⟩
    · by_cases hd : (0:ℚ) < simScore src d ∧ t ≤ simScore src d
      · right
        refine ⟨d, cs, [], ?_, hd.2, by simp, ?_, by simp⟩
        · rw [happ, h1]
          simp [fbmLoop, hd]
        · intro p hp
          rcases not_and_or.mp (h2 p hp) with hnp | hnp
          · exact lt_of_le_of_lt (not_lt.mp hnp) hd.1
          · exact lt_of_lt_of_le (not_le.mp hnp) hd.2
      · left
        constructor
        · rw [happ, h1]
          simp only [fbmLoop, hd, if_false]
        · intro q hq
          rcases List.mem_append.mp hq with h | h
          · exact h2 q h
          · rw [List.mem_singleton.mp h]
            exact hd
    · by_cases hd : simScore src c < simScore src d ∧ t ≤ simScore src d
      · right
        refine ⟨d, cs, [], ?_, hd.2, by simp, ?_, by simp⟩
        · rw [happ, h1]
          simp [fbmLoop, hd]
        · intro p hp
          rw [hdec] at hp
          rcases List.mem_append.mp hp with h | h
          · exact lt_trans (hpre p h) hd.1
          · rcases List.mem_cons.mp h with rfl | h
            · exact hd.1
            · exact lt_of_le_of_lt (hpost p h) hd.1
      · right
        refine ⟨c, pre, post ++ [d], ?_, ht2, by rw [hdec]; simp, hpre, ?_⟩
        · rw [happ, h1]
          simp only [fbmLoop, hd, if_false]
        · intro q hq
          rcases List.mem_append.mp hq with h | h
          · exact hpost q h
          · rw [List.mem_singleton.mp h]
            rcases not_and_or.mp hd with hnp | hnp
            · exact not_lt.mp hnp
            · exact le_trans (le_of_lt (not_le.mp hnp)) ht2

/-- C1 (amended): for every positive threshold, find_best_match returns a
match iff some candidate scores at least the threshold, and the returned
match is the first candidate attaining the maximum score (earlier
candidates score strictly below it, later candidates never displace an
equal score).  For threshold <= 0 the claim fails: a maximum score of 0
never passes the strict-improvement test against the initial best_score 0
(see the counterexample). -/
theorem find_best_match_first_argmax (src : List Char) (cands : List (List Char))
    (t : ℚ) (ht : 0 < t) :
    ((find_best_match src cands t).1 ≠ none ↔ ∃ c ∈ cands, t ≤ simScore src c) ∧
    ∀ c, (find_best_match src cands t).1 = some c →
      (find_best_match src cands t).2 = simScore src c ∧ t ≤ simScore src c ∧
      ∃ pre post, cands = pre ++ c :: post ∧
        (∀ p ∈ pre, simScore src p < simScore src c) ∧
        (∀ q ∈ post, simScore src q ≤ simScore src c) := by
  rcases find_best_match_spec src t cands with ⟨h1, h2⟩ |
    ⟨c, pre, post, h1, ht2, hdec, hpre, hpost⟩
  · constructor
    · rw [h1]
      simp only [ne_eq, not_true_eq_false, false_iff, not_exists]
      intro q hq
      exact h2 q hq.1 ⟨lt_of_lt_of_le ht hq.2, hq.2⟩
    · intro c hc
      rw [h1] at hc
      exact absurd hc (by simp)
  · constructor
    · rw [h1]
      simp only [ne_eq, reduceCtorEq, not_false_eq_true, true_iff]
      exact ⟨c, by rw [hdec]; simp, ht2⟩
    · intro c2 hc2
      rw [h1] at hc2
      obtain rfl : c = c2 := by simpa using hc2
      exact ⟨by rw [h1], ht2, pre, post, hdec, hpre, hpost⟩

/-- C1 (counterexample): with threshold 0 and a sole candidate of score 0,
the maximum score reaches the threshold yet find_best_match returns no
match, because score > best_score fails against the initial best_score 0. -/
theorem find_best_match_zero_threshold_cex :
    simScore "a".toList "b".toList = 0 ∧
    (0:ℚ) ≤ simScore "a".toList "b".toList ∧
    (find_best_match "a".toList ["b".toList] 0).1 = none := by
  have hS : blockSizeSum (matchingBlocks (pyLower (clean_district_name "a".toList))
      (pyLower (clean_district_name "b".toList))) = 0 := by decide
  have hd : (pyLower (clean_district_name "a".toList)).length
      + (pyLower (clean_district_name "b".toList)).length = 2 := by decide
  have hsim : simScore "a".toList "b".toList = 0 := by
    rw [simScore, pyRatio, if_neg (by decide), hS, hd]
    norm_num
  refine ⟨hsim, by rw [hsim], ?_⟩
  simp only [find_best_match, fbmLoop, hsim]
  norm_num

/-- C1 (witness): the amended theorem at threshold 1 with a single
candidate. -/
theorem find_best_match_first_argmax_witness :
    (0:ℚ) < 1 ∧
    ((find_best_match "Andijon tumani".toList ["Andijon shahri".toList] 1).1 ≠ none ↔
      ∃ c ∈ ["Andijon shahri".toList],
        (1:ℚ) ≤ simScore "Andijon tumani".toList c) :=
  ⟨one_pos,
    (find_best_match_first_argmax "Andijon tumani".toList
      ["Andijon shahri".toList] 1 one_pos).1⟩

/-! ### Slice and common-run toolkit -/

lemma slice_eq (s : List Char) (lo hi : ℕ) :
    slice s lo hi = (s.drop lo).take (hi - lo) := by
  rw [slice, List.drop_take]

lemma slice_length (s : List Char) (lo hi : ℕ) (h1 : lo ≤ hi) (h2 : hi ≤ s.length) :
    (slice s lo hi).length = hi - lo := by
  rw [slice_eq, List.length_take, List.length_drop]
  omega

lemma slice_nil (s : List Char) (lo : ℕ) : slice s lo lo = [] := by
  rw [slice_eq]
  simp

lemma slice_full (s : List Char) : slice s 0 s.length = s := by
  rw [slice_eq]
  simp

lemma slice_append_mid (s : List Char) (lo mid hi : ℕ) (h1 : lo ≤ mid) (h2 : mid ≤ hi) :
    slice s lo hi = slice s lo mid ++ slice s mid hi := by
  rw [slice_eq, slice_eq, slice_eq]
  have hsum : hi - lo = (mid - lo) + (hi - mid) := by omega
  rw [hsum, List.take_add]
  congr 1
  rw [List.drop_drop]
  have : lo + (mid - lo) = mid := by omega
  rw [this]

lemma charAt_eq_getElem (s : List Char) (i : ℕ) (h : i < s.length) :
    charAt s i = s[i] := by
  simp [charAt, List.getD_eq_getElem?_getD, List.getElem?_eq_getElem h]

lemma slice_singleton (s : List Char) (i : ℕ) (h : i < s.length) :
    slice s i (i + 1) = [charAt s i] := by
  have h1 : (i + 1) - i = 1 := by omega
  rw [slice_eq, h1, List.drop_eq_getElem_cons h, charAt_eq_getElem s i h]
  rfl

lemma slice_snoc (s : List Char) (lo i : ℕ) (h1 : lo ≤ i) (h2 : i < s.length) :
    slice s lo (i + 1) = slice s lo i ++ [charAt s i] := by
  rw [slice_append_mid s lo i (i + 1) h1 (Nat.le_succ i), slice_singleton s i h2]

lemma slice_drop (s : List Char) (lo hi d : ℕ) (h : lo + d ≤ hi) :
    (slice s lo hi).drop d = slice s (lo + d) hi := by
  rw [slice_eq, slice_eq, List.drop_take, List.drop_drop]
  congr 1
  omega

lemma slice_take (s : List Char) (lo hi e : ℕ) (h : lo + e ≤ hi) :
    (slice s lo hi).take e = slice s lo (lo + e) := by
  rw [slice_eq, slice_eq, List.take_take]
  congr 1
  omega

lemma commonRunLen_le_left : ∀ u v : List Char, commonRunLen u v ≤ u.length := by
  intro u
  induction u with
  | nil => intro v; cases v <;> simp [commonRunLen]
  | cons c cs ih =>
    intro v
    cases v with
    | nil => simp [commonRunLen]
    | cons d ds =>
      by_cases h : c = d <;> simp [commonRunLen, h]
      exact ih ds

lemma commonRunLen_le_right : ∀ u v : List Char, commonRunLen u v ≤ v.length := by
  intro u
  induction u with
  | nil => intro v; cases v <;> simp [commonRunLen]
  | cons c cs ih =>
    intro v
    cases v with
    | nil => simp [commonRunLen]
    | cons d ds =>
      by_cases h : c = d <;> simp [commonRunLen, h]
      exact ih ds

lemma commonRunLen_take : ∀ u v : List Char,
    u.take (commonRunLen u v) = v.take (commonRunLen u v) := by
  intro u
  induction u with
  | nil => intro v; cases v <;> simp [commonRunLen]
  | cons c cs ih =>
    intro v
    cases v with
    | nil => simp [commonRunLen]
    | cons d ds =>
      by_cases h : c = d
      · subst h
        simp [commonRunLen, ih ds]
      · simp [commonRunLen, h]

lemma commonRunLen_self : ∀ u : List Char, commonRunLen u u = u.length := by
  intro u
  induction u with
  | nil => simp [commonRunLen]
  | cons c cs ih => simp [commonRunLen, ih]

lemma commonTailLen_le_left (u v : List Char) : commonTailLen u v ≤ u.length := by
  have := commonRunLen_le_left u.reverse v.reverse
  simpa [commonTailLen] using this

lemma commonTailLen_le_right (u v : List Char) : commonTailLen u v ≤ v.length := by
  have := commonRunLen_le_right u.reverse v.reverse
  simpa [commonTailLen] using this

lemma commonTailLen_drop (u v : List Char) :
    u.drop (u.length - commonTailLen u v) = v.drop (v.length - commonTailLen u v) := by
  have h := commonRunLen_take u.reverse v.reverse
  rw [commonTailLen]
  have hu := @List.take_reverse Char u (commonRunLen u.reverse v.reverse)
  have hv := @List.take_reverse Char v (commonRunLen u.reverse v.reverse)
  rw [hu, hv] at h
  exact List.reverse_injective h

/-! ### Occurrence-list membership -/

lemma mem_occList (b : List Char) (c : Char) (j : ℕ) :
    j ∈ occList b c ↔ j < b.length ∧ charAt b j = c := by
  simp [occList, List.mem_filter, List.mem_range]

lemma mem_b2j (b : List Char) (c : Char) (j : ℕ) (h : j ∈ b2j b c) :
    j < b.length ∧ charAt b j = c := by
  rw [b2j] at h
  split at h
  · simp at h
  · exact (mem_occList b c j).mp h

lemma occList_pairwise (b : List Char) (c : Char) :
    (occList b c).Pairwise (· < ·) :=
  (List.pairwise_lt_range b.length).filter _

lemma b2j_pairwise (b : List Char) (c : Char) : (b2j b c).Pairwise (· < ·) := by
  rw [b2j]
  split
  · exact List.Pairwise.nil
  · exact occList_pairwise b c

lemma jList_mem (a b : List Char) (blo bhi i j : ℕ) (h : j ∈ jList a b blo bhi i) :
    blo ≤ j ∧ j < bhi ∧ j < b.length ∧ charAt b j = charAt a i := by
  rw [jList, List.mem_filter] at h
  obtain ⟨hb2j, hw⟩ := h
  have hw2 : blo ≤ j ∧ j < bhi := by simpa using hw
  have hm := mem_b2j b (charAt a i) j hb2j
  exact ⟨hw2.1, hw2.2, hm.1, hm.2⟩

lemma jList_pairwise (a b : List Char) (blo bhi i : ℕ) :
    (jList a b blo bhi i).Pairwise (· < ·) :=
  (b2j_pairwise b (charAt a i)).filter _

/-! ### find_longest_match: block validity

ReadOK states the invariant of the chain-length row read while scanning
a-position i: a positive entry m at key j means the m characters of a
ending before position i match the m characters of b ending after position
j, all inside the window.  BlockOK states that a candidate block lies in
the window and its two segments are equal. -/

def ReadOK (a b : List Char) (alo blo bhi : ℕ) (f : ℕ → ℕ) (i : ℕ) : Prop :=
  ∀ j, 0 < f j → alo + f j ≤ i ∧ blo + f j ≤ j + 1 ∧ j + 1 ≤ bhi ∧
    slice a (i - f j) i = slice b (j + 1 - f j) (j + 1)

def BlockOK (a b : List Char) (alo ahi blo bhi bi bj bs : ℕ) : Prop :=
  alo ≤ bi ∧ blo ≤ bj ∧ bi + bs ≤ ahi ∧ bj + bs ≤ bhi ∧
    slice a bi (bi + bs) = slice b bj (bj + bs)

lemma readOK_zero (a b : List Char) (alo blo bhi i : ℕ) :
    ReadOK a b alo blo bhi (fun _ => 0) i := by
  intro j hj
  simp at hj

lemma chain_entry_ok (a b : List Char) (alo blo bhi : ℕ) (i j : ℕ)
    (hi1 : alo ≤ i) (hia : i < a.length) (hjb : j < b.length) (hjh : j < bhi)
    (hj1 : blo ≤ j) (hc : charAt b j = charAt a i)
    (j2l : ℕ → ℕ) (hj2l : ReadOK a b alo blo bhi j2l i) (k : ℕ)
    (hk : k = (if j = 0 then 0 else j2l (j - 1)) + 1) :
    alo + k ≤ i + 1 ∧ blo + k ≤ j + 1 ∧ j + 1 ≤ bhi ∧
      slice a (i + 1 - k) (i + 1) = slice b (j + 1 - k) (j + 1) := by
  by_cases hj0 : j = 0
  · subst hj0
    have hkk : k = 1 := by rw [hk]; norm_num
    subst hkk
    refine ⟨by omega, by omega, by omega, ?_⟩
    have h1 : i + 1 - 1 = i := by omega
    have h2 : (0:ℕ) + 1 - 1 = 0 := by omega
    rw [h1, h2, slice_singleton a i hia, slice_singleton b 0 hjb, hc]
  · by_cases hm : j2l (j - 1) = 0
    · have hkk : k = 1 := by rw [hk, if_neg hj0, hm]
      subst hkk
      refine ⟨by omega, by omega, by omega, ?_⟩
      have h1 : i + 1 - 1 = i := by omega
      have h2 : j + 1 - 1 = j := by omega
      rw [h1, h2, slice_singleton a i hia, slice_singleton b j hjb, hc]
    · have hmpos : 0 < j2l (j - 1) := Nat.pos_of_ne_zero hm
      obtain ⟨ha1, ha2, ha3, ha4⟩ := hj2l (j - 1) hmpos
      have hj1' : j - 1 + 1 = j := by omega
      rw [hj1'] at ha2 ha3 ha4
      have hkk : k = j2l (j - 1) + 1 := by rw [hk, if_neg hj0]
      subst hkk
      refine ⟨by omega, by omega, by omega, ?_⟩
      have e1 : i + 1 - (j2l (j - 1) + 1) = i - j2l (j - 1) := by omega
      have e2 : j + 1 - (j2l (j - 1) + 1) = j - j2l (j - 1) := by omega
      rw [e1, e2, slice_snoc a (i - j2l (j - 1)) i (by omega) hia,
        slice_snoc b (j - j2l (j - 1)) j (by omega) hjb, hc, ha4]

lemma flmIn_ok (a b : List Char) (alo ahi blo bhi : ℕ)
    (ha : ahi ≤ a.length) (hb : bhi ≤ b.length) (i : ℕ) (hi1 : alo ≤ i) (hi2 : i < ahi)
    (j2l : ℕ → ℕ) (hj2l : ReadOK a b alo blo bhi j2l i) :
    ∀ (js : List ℕ), (∀ j ∈ js, blo ≤ j ∧ j < bhi ∧ j < b.length ∧ charAt b j = charAt a i) →
    ∀ (nj : ℕ → ℕ) (bi bj bs : ℕ), ReadOK a b alo blo bhi nj (i + 1) →
      BlockOK a b alo ahi blo bhi bi bj bs →
      ReadOK a b alo blo bhi (flmIn i j2l js (nj, bi, bj, bs)).1 (i + 1) ∧
      BlockOK a b alo ahi blo bhi (flmIn i j2l js (nj, bi, bj, bs)).2.1
        (flmIn i j2l js (nj, bi, bj, bs)).2.2.1 (flmIn i j2l js (nj, bi, bj, bs)).2.2.2 := by
  intro js
  induction js with
  | nil =>
    intro _ nj bi bj bs hnj hbest
    exact ⟨hnj, hbest⟩
  | cons j rest ih =>
    intro hjs nj bi bj bs hnj hbest
    obtain ⟨hw1, hw2, hw3, hw4⟩ := hjs j (List.mem_cons_self j rest)
    have hrest : ∀ j2 ∈ rest, blo ≤ j2 ∧ j2 < bhi ∧ j2 < b.length ∧
        charAt b j2 = charAt a i :=
      fun j2 hj2 => hjs j2 (List.mem_cons_of_mem j hj2)
    have hentry := chain_entry_ok a b alo blo bhi i j hi1 (lt_of_lt_of_le hi2 ha)
      hw3 hw2 hw1 hw4 j2l hj2l ((if j = 0 then 0 else j2l (j - 1)) + 1) rfl
    set k := (if j = 0 then 0 else j2l (j - 1)) + 1 with hk
    have hnj2 : ReadOK a b alo blo bhi
        (fun j2 => if j2 = j then k else nj j2) (i + 1) := by
      intro j2 hj2
      by_cases hej : j2 = j
      · subst hej
        simp only [if_pos rfl]
        exact ⟨hentry.1, hentry.2.1, hentry.2.2.1, hentry.2.2.2⟩
      · simp only [if_neg hej] at hj2 ⊢
        exact hnj j2 hj2
    show ReadOK _ _ _ _ _ (flmIn i j2l (j :: rest) (nj, bi, bj, bs)).1 _ ∧ _
    rw [flmIn]
    by_cases hup : bs < k
    · rw [if_pos hup]
      apply ih hrest _ _ _ _ hnj2
      refine ⟨by omega, by omega, ?_, ?_, ?_⟩
      · have h3 : i + 1 - k + k = i + 1 := by omega
        rw [h3]
        omega
      · have h3 : j + 1 - k + k = j + 1 := by omega
        rw [h3]
        omega
      · have e1 : i + 1 - k + k = i + 1 := by omega
        have e2 : j + 1 - k + k = j + 1 := by omega
        rw [e1, e2]
        exact hentry.2.2.2
    · rw [if_neg hup]
      exact ih hrest _ _ _ _ hnj2 hbest

lemma flmRows_ok (a b : List Char) (alo ahi blo bhi : ℕ)
    (ha : ahi ≤ a.length) (hb : bhi ≤ b.length) :
    ∀ (n i : ℕ), alo ≤ i → i + n ≤ ahi →
    ∀ (j2l : ℕ → ℕ), ReadOK a b alo blo bhi j2l i →
    ∀ (bi bj bs : ℕ), BlockOK a b alo ahi blo bhi bi bj bs →
      BlockOK a b alo ahi blo bhi
        (flmRows a b blo bhi (List.range' i n) j2l (bi, bj, bs)).1
        (flmRows a b blo bhi (List.range' i n) j2l (bi, bj, bs)).2.1
        (flmRows a b blo bhi (List.range' i n) j2l (bi, bj, bs)).2.2 := by
  intro n
  induction n with
  | zero =>
    intro i _ _ j2l _ bi bj bs hbest
    exact hbest
  | succ n ih =>
    intro i hi1 hi2 j2l hj2l bi bj bs hbest
    have hrow : List.range' i (n + 1) = i :: List.range' (i + 1) n := by
      rw [List.range'_succ]
    rw [hrow, flmRows]
    have hjs : ∀ j ∈ jList a b blo bhi i,
        blo ≤ j ∧ j < bhi ∧ j < b.length ∧ charAt b j = charAt a i :=
      fun j hj => jList_mem a b blo bhi i j hj
    have hstep := flmIn_ok a b alo ahi blo bhi ha hb i hi1 (by omega) j2l hj2l
      (jList a b blo bhi i) hjs (fun _ => 0) bi bj bs
      (readOK_zero a b alo blo bhi (i + 1)) hbest
    exact ih (i + 1) (by omega) (by omega) _ hstep.1 _ _ _ hstep.2

lemma extendMatch_ok (a b : List Char) (alo ahi blo bhi bi bj bs : ℕ)
    (ha : ahi ≤ a.length) (hb : bhi ≤ b.length)
    (hB : BlockOK a b alo ahi blo bhi bi bj bs) :
    BlockOK a b alo ahi blo bhi
      (extendMatch a b alo ahi blo bhi bi bj bs).1
      (extendMatch a b alo ahi blo bhi bi bj bs).2.1
      (extendMatch a b alo ahi blo bhi bi bj bs).2.2 := by
  obtain ⟨hbi, hbj, hba, hbb, hsl⟩ := hB
  have hbia : bi ≤ a.length := by omega
  have hbjb : bj ≤ b.length := by omega
  have hlu : (slice a alo bi).length = bi - alo :=
    slice_length a alo bi hbi hbia
  have hlv : (slice b blo bj).length = bj - blo :=
    slice_length b blo bj hbj hbjb
  set e1 := commonTailLen (slice a alo bi) (slice b blo bj) with he1
  have he1a : e1 ≤ bi - alo := by
    have := commonTailLen_le_left (slice a alo bi) (slice b blo bj)
    omega
  have he1b : e1 ≤ bj - blo := by
    have := commonTailLen_le_right (slice a alo bi) (slice b blo bj)
    omega
  have hsfx : slice a (bi - e1) bi = slice b (bj - e1) bj := by
    have h := commonTailLen_drop (slice a alo bi) (slice b blo bj)
    rw [← he1, hlu, hlv] at h
    rw [slice_drop a alo bi (bi - alo - e1) (by omega)] at h
    rw [slice_drop b blo bj (bj - blo - e1) (by omega)] at h
    have e2 : alo + (bi - alo - e1) = bi - e1 := by omega
    have e3 : blo + (bj - blo - e1) = bj - e1 := by omega
    rw [e2, e3] at h
    exact h
  have hblock1 : slice a (bi - e1) (bi + bs) = slice b (bj - e1) (bj + bs) := by
    rw [slice_append_mid a (bi - e1) bi (bi + bs) (by omega) (by omega),
      slice_append_mid b (bj - e1) bj (bj + bs) (by omega) (by omega), hsfx, hsl]
  have hle2 : (slice a (bi + bs) ahi).length = ahi - (bi + bs) :=
    slice_length a (bi + bs) ahi hba ha
  have hle3 : (slice b (bj + bs) bhi).length = bhi - (bj + bs) :=
    slice_length b (bj + bs) bhi hbb hb
  set e2 := commonRunLen (slice a (bi + bs) ahi) (slice b (bj + bs) bhi) with he2def
  have he2a : e2 ≤ ahi - (bi + bs) := by
    have := commonRunLen_le_left (slice a (bi + bs) ahi) (slice b (bj + bs) bhi)
    omega
  have he2b : e2 ≤ bhi - (bj + bs) := by
    have := commonRunLen_le_right (slice a (bi + bs) ahi) (slice b (bj + bs) bhi)
    omega
  have hpre : slice a (bi + bs) (bi + bs + e2) = slice b (bj + bs) (bj + bs + e2) := by
    have h := commonRunLen_take (slice a (bi + bs) ahi) (slice b (bj + bs) bhi)
    rw [← he2def] at h
    rw [slice_take a (bi + bs) ahi e2 (by omega),
      slice_take b (bj + bs) bhi e2 (by omega)] at h
    exact h
  have hresult : extendMatch a b alo ahi blo bhi bi bj bs
      = (bi - e1, bj - e1, bs + e1 + e2) := by
    simp only [extendMatch]
    rw [← he1]
    have g1 : bi - e1 + (bs + e1) = bi + bs := by omega
    have g2 : bj - e1 + (bs + e1) = bj + bs := by omega
    rw [g1, g2, ← he2def]
  rw [hresult]
  show BlockOK a b alo ahi blo bhi (bi - e1) (bj - e1) (bs + e1 + e2)
  refine ⟨by omega, by omega, by omega, by omega, ?_⟩
  have g3 : bi - e1 + (bs + e1 + e2) = bi + bs + e2 := by omega
  have g4 : bj - e1 + (bs + e1 + e2) = bj + bs + e2 := by omega
  rw [g3, g4,
    slice_append_mid a (bi - e1) (bi + bs) (bi + bs + e2) (by omega) (by omega),
    slice_append_mid b (bj - e1) (bj + bs) (bj + bs + e2) (by omega) (by omega),
    hblock1, hpre]

lemma find_longest_match_ok (a b : List Char) (alo ahi blo bhi : ℕ)
    (h1 : alo ≤ ahi) (ha : ahi ≤ a.length) (h2 : blo ≤ bhi) (hb : bhi ≤ b.length) :
    BlockOK a b alo ahi blo bhi
      (find_longest_match a b alo ahi blo bhi).1
      (find_longest_match a b alo ahi blo bhi).2.1
      (find_longest_match a b alo ahi blo bhi).2.2 := by
  have hinit : BlockOK a b alo ahi blo bhi alo blo 0 := by
    refine ⟨le_refl _, le_refl _, by omega, by omega, ?_⟩
    rw [Nat.add_zero, Nat.add_zero, slice_nil, slice_nil]
  have hd := flmRows_ok a b alo ahi blo bhi ha hb (ahi - alo) alo (le_refl _)
    (by omega) (fun _ => 0) (readOK_zero a b alo blo bhi alo) alo blo 0 hinit
  have hfl : find_longest_match a b alo ahi blo bhi
      = extendMatch a b alo ahi blo bhi
          (flmRows a b blo bhi (List.range' alo (ahi - alo)) (fun _ => 0)
            (alo, blo, 0)).1
          (flmRows a b blo bhi (List.range' alo (ahi - alo)) (fun _ => 0)
            (alo, blo, 0)).2.1
          (flmRows a b blo bhi (List.range' alo (ahi - alo)) (fun _ => 0)
            (alo, blo, 0)).2.2 := rfl
  rw [hfl]
  exact extendMatch_ok a b alo ahi blo bhi _ _ _ ha hb hd

/-! ### Matching-block sums -/

lemma blockSizeSum_nil : blockSizeSum [] = 0 := rfl

lemma blockSizeSum_append (u v : List (ℕ × ℕ × ℕ)) :
    blockSizeSum (u ++ v) = blockSizeSum u + blockSizeSum v := by
  simp [blockSizeSum]

lemma blockSizeSum_cons (m : ℕ × ℕ × ℕ) (v : List (ℕ × ℕ × ℕ)) :
    blockSizeSum (m :: v) = m.2.2 + blockSizeSum v := by
  simp [blockSizeSum]

/-- The total matched size over a window is at most each window size, and
attains both only when the two window slices are equal. -/
lemma matchingBlocksF_bound (a b : List Char) :
    ∀ (fuel alo ahi blo bhi : ℕ), alo ≤ ahi → ahi ≤ a.length → blo ≤ bhi →
      bhi ≤ b.length → ahi - alo ≤ fuel →
      blockSizeSum (matchingBlocksF a b fuel alo ahi blo bhi) ≤ ahi - alo ∧
      blockSizeSum (matchingBlocksF a b fuel alo ahi blo bhi) ≤ bhi - blo ∧
      (blockSizeSum (matchingBlocksF a b fuel alo ahi blo bhi) = ahi - alo →
        blockSizeSum (matchingBlocksF a b fuel alo ahi blo bhi) = bhi - blo →
        slice a alo ahi = slice b blo bhi) := by
  intro fuel
  induction fuel with
  | zero =>
    intro alo ahi blo bhi h1 ha h2 hb hfuel
    have hmb : matchingBlocksF a b 0 alo ahi blo bhi = [] := rfl
    rw [hmb, blockSizeSum_nil]
    refine ⟨by omega, by omega, ?_⟩
    intro hea heb
    have g1 : ahi = alo := by omega
    have g2 : bhi = blo := by omega
    rw [g1, g2, slice_nil, slice_nil]
  | succ fuel ih =>
    intro alo ahi blo bhi h1 ha h2 hb hfuel
    obtain ⟨hk1, hk2, hk3, hk4, hk5⟩ :=
      find_longest_match_ok a b alo ahi blo bhi h1 ha h2 hb
    set m := find_longest_match a b alo ahi blo bhi with hm
    have hstep : matchingBlocksF a b (fuel + 1) alo ahi blo bhi
        = if m.2.2 = 0 then [] else
            matchingBlocksF a b fuel alo m.1 blo m.2.1 ++
              m :: matchingBlocksF a b fuel (m.1 + m.2.2) ahi (m.2.1 + m.2.2) bhi := by
      simp only [matchingBlocksF]
    by_cases hz : m.2.2 = 0
    · rw [hstep, if_pos hz, blockSizeSum_nil]
      refine ⟨by omega, by omega, ?_⟩
      intro hea heb
      have g1 : ahi = alo := by omega
      have g2 : bhi = blo := by omega
      rw [g1, g2, slice_nil, slice_nil]
    · rw [hstep, if_neg hz]
      have hkpos : 0 < m.2.2 := Nat.pos_of_ne_zero hz
      obtain ⟨hL1, hL2, hL3⟩ := ih alo m.1 blo m.2.1 hk1 (by omega) hk2 (by omega)
        (by omega)
      obtain ⟨hR1, hR2, hR3⟩ := ih (m.1 + m.2.2) ahi (m.2.1 + m.2.2) bhi hk3 ha
        hk4 hb (by omega)
      rw [blockSizeSum_append, blockSizeSum_cons]
      refine ⟨by omega, by omega, ?_⟩
      intro hea heb
      have hLeq := hL3 (by omega) (by omega)
      have hReq := hR3 (by omega) (by omega)
      rw [slice_append_mid a alo m.1 ahi hk1 (by omega),
        slice_append_mid a m.1 (m.1 + m.2.2) ahi (by omega) hk3,
        slice_append_mid b blo m.2.1 bhi hk2 (by omega),
        slice_append_mid b m.2.1 (m.2.1 + m.2.2) bhi (by omega) hk4,
        hLeq, hReq, hk5]

lemma matchingBlocks_bound (a b : List Char) :
    blockSizeSum (matchingBlocks a b) ≤ a.length ∧
    blockSizeSum (matchingBlocks a b) ≤ b.length ∧
    (blockSizeSum (matchingBlocks a b) = a.length →
      blockSizeSum (matchingBlocks a b) = b.length → a = b) := by
  have h := matchingBlocksF_bound a b a.length 0 a.length 0 b.length
    (Nat.zero_le _) (le_refl _) (Nat.zero_le _) (le_refl _) (by omega)
  rw [matchingBlocks]
  simp only [Nat.sub_zero] at h
  obtain ⟨h1, h2, h3⟩ := h
  refine ⟨h1, h2, fun hea heb => ?_⟩
  have := h3 hea heb
  rwa [slice_full, slice_full] at this

/-! ### The diagonal property: find_longest_match on two equal strings

On the aligned window [lo, hi) of a string against itself the DP best block
always lies on the diagonal (bi = bj): the first time any chain length
exceeds the running best, the diagonal chain at the same row attains at
least that length and is scanned no later than any longer-column tie, while
chains in earlier columns are dominated by bests already recorded when
those columns were rows.  The extension loops then grow a diagonal block to
the whole window, since a character always equals itself. -/

def goodPos (x : List Char) (lo hi j : ℕ) : Bool :=
  decide (lo ≤ j) && decide (j < hi) && decide (j ∈ b2j x (charAt x j))

def dchain (x : List Char) (lo hi : ℕ) : ℕ → ℕ
  | 0 => if goodPos x lo hi 0 then 1 else 0
  | j + 1 => if goodPos x lo hi (j + 1) then dchain x lo hi j + 1 else 0

lemma dchain_of_good (x : List Char) (lo hi j : ℕ) (h : goodPos x lo hi j = true) :
    dchain x lo hi j = (if j = 0 then 0 else dchain x lo hi (j - 1)) + 1 := by
  cases j with
  | zero => simp [dchain, h]
  | succ j => simp [dchain, h]

lemma dchain_of_not_good (x : List Char) (lo hi j : ℕ)
    (h : goodPos x lo hi j = false) : dchain x lo hi j = 0 := by
  cases j with
  | zero => simp [dchain, h]
  | succ j => simp [dchain, h]

lemma dchain_pos_of_good (x : List Char) (lo hi j : ℕ)
    (h : goodPos x lo hi j = true) : 1 ≤ dchain x lo hi j := by
  rw [dchain_of_good x lo hi j h]
  omega

lemma goodPos_window (x : List Char) (lo hi j : ℕ) (h : goodPos x lo hi j = true) :
    lo ≤ j ∧ j < hi := by
  have h2 := h
  simp only [goodPos, Bool.and_eq_true, decide_eq_true_eq] at h2
  exact ⟨h2.1.1, h2.1.2⟩

lemma b2j_self_of_mem (x : List Char) (c : Char) (i j : ℕ) (hj : j ∈ b2j x c)
    (hi : i < x.length) (hc : charAt x i = c) : i ∈ b2j x c := by
  by_cases hpop : 200 ≤ x.length ∧ x.length / 100 + 1 < (occList x c).length
  · rw [b2j, if_pos hpop] at hj
    simp at hj
  · rw [b2j, if_neg hpop]
    exact (mem_occList x c i).mpr ⟨hi, hc⟩

lemma jList_good (x : List Char) (lo hi i j : ℕ) (hij : j ∈ jList x x lo hi i) :
    goodPos x lo hi j = true ∧ charAt x j = charAt x i := by
  have h := jList_mem x x lo hi i j hij
  rw [jList, List.mem_filter] at hij
  obtain ⟨hb2j, _⟩ := hij
  have hcj : charAt x j = charAt x i := h.2.2.2
  have hself : j ∈ b2j x (charAt x j) := by rw [hcj]; exact hb2j
  refine ⟨?_, hcj⟩
  simp [goodPos, h.1, h.2.1, hself]

lemma good_row_of_mem (x : List Char) (lo hi i j : ℕ) (hmem : j ∈ jList x x lo hi i)
    (hi1 : lo ≤ i) (hi2 : i < hi) (hhi : hi ≤ x.length) :
    goodPos x lo hi i = true := by
  rw [jList, List.mem_filter] at hmem
  obtain ⟨hb2j, _⟩ := hmem
  have hself : i ∈ b2j x (charAt x i) :=
    b2j_self_of_mem x (charAt x i) i j hb2j (by omega) rfl
  simp [goodPos, hi1, hi2, hself]

lemma commonTailLen_self (u : List Char) : commonTailLen u u = u.length := by
  rw [commonTailLen, commonRunLen_self, List.length_reverse]

lemma flmIn_diag (x : List Char) (lo hi : ℕ)
    (i : ℕ) (j2l : ℕ → ℕ)
    (hR0 : i = 0 → ∀ j, j2l j = 0)
    (hR1 : ∀ j, j2l j ≤ dchain x lo hi j)
    (hR2 : ∀ j m, i = m + 1 → j2l j ≤ dchain x lo hi m)
    (hR3 : ∀ m, i = m + 1 → j2l m = dchain x lo hi m) :
    ∀ (js : List ℕ), js.Pairwise (· < ·) →
      (∀ j ∈ js, goodPos x lo hi j = true) →
      (js ≠ [] → goodPos x lo hi i = true) →
      ∀ (nj : ℕ → ℕ) (bi bj bs : ℕ),
        (∀ j, nj j ≤ dchain x lo hi j) →
        (∀ j, nj j ≤ dchain x lo hi i) →
        (i ∈ js ∨ nj i = dchain x lo hi i) →
        bi = bj →
        (∀ r, lo ≤ r → r < i → dchain x lo hi r ≤ bs) →
        (i ∈ js ∨ dchain x lo hi i ≤ bs) →
        (∀ j, (flmIn i j2l js (nj, bi, bj, bs)).1 j ≤ dchain x lo hi j) ∧
        (∀ j, (flmIn i j2l js (nj, bi, bj, bs)).1 j ≤ dchain x lo hi i) ∧
        ((flmIn i j2l js (nj, bi, bj, bs)).1 i = dchain x lo hi i) ∧
        (flmIn i j2l js (nj, bi, bj, bs)).2.1 = (flmIn i j2l js (nj, bi, bj, bs)).2.2.1 ∧
        (∀ r, lo ≤ r → r < i + 1 →
          dchain x lo hi r ≤ (flmIn i j2l js (nj, bi, bj, bs)).2.2.2) := by
  intro js
  induction js with
  | nil =>
    intro _ _ _ nj bi bj bs hN1 hN2 hN3 hB1 hB2 hD
    have hN3' : nj i = dchain x lo hi i := by
      rcases hN3 with h | h
      · simp at h
      · exact h
    have hD' : dchain x lo hi i ≤ bs := by
      rcases hD with h | h
      · simp at h
      · exact h
    refine ⟨hN1, hN2, hN3', hB1, ?_⟩
    intro r hr1 hr2
    by_cases hri : r = i
    · subst hri; exact hD'
    · exact hB2 r hr1 (by omega)
  | cons j rest ih =>
    intro hpw hgood hgrow nj bi bj bs hN1 hN2 hN3 hB1 hB2 hD
    have hgj : goodPos x lo hi j = true := hgood j (List.mem_cons_self j rest)
    have hgi : goodPos x lo hi i = true := hgrow (by simp)
    have hgoodrest : ∀ j2 ∈ rest, goodPos x lo hi j2 = true :=
      fun j2 h2 => hgood j2 (List.mem_cons_of_mem j h2)
    have hpwrest : rest.Pairwise (· < ·) := (List.pairwise_cons.mp hpw).2
    have hpwhead : ∀ j2 ∈ rest, j < j2 := (List.pairwise_cons.mp hpw).1
    have hgjw := goodPos_window x lo hi j hgj
    set k := (if j = 0 then 0 else j2l (j - 1)) + 1 with hk
    have fact1 : k ≤ dchain x lo hi j := by
      rw [dchain_of_good x lo hi j hgj]
      by_cases hj0 : j = 0
      · simp [hk, hj0]
      · rw [hk, if_neg hj0, if_neg hj0]
        exact Nat.succ_le_succ (hR1 (j - 1))
    have fact2 : k ≤ dchain x lo hi i := by
      rw [dchain_of_good x lo hi i hgi]
      cases i with
      | zero =>
        by_cases hj0 : j = 0
        · simp [hk, hj0]
        · rw [hk, if_neg hj0, hR0 rfl (j - 1)]
          simp
      | succ m =>
        by_cases hj0 : j = 0
        · simp [hk, hj0]
        · rw [hk, if_neg hj0, if_neg (Nat.succ_ne_zero m)]
          have : m + 1 - 1 = m := by omega
          rw [this]
          exact Nat.succ_le_succ (hR2 (j - 1) m rfl)
    have hnj2N1 : ∀ j2, (fun j2 => if j2 = j then k else nj j2) j2 ≤ dchain x lo hi j2 := by
      intro j2
      by_cases hej : j2 = j
      · subst hej; simp only [if_pos rfl]; exact fact1
      · simp only [if_neg hej]; exact hN1 j2
    have hnj2N2 : ∀ j2, (fun j2 => if j2 = j then k else nj j2) j2 ≤ dchain x lo hi i := by
      intro j2
      by_cases hej : j2 = j
      · subst hej; simp only [if_pos rfl]; exact fact2
      · simp only [if_neg hej]; exact hN2 j2
    show (∀ j2, (flmIn i j2l (j :: rest) (nj, bi, bj, bs)).1 j2 ≤ _) ∧ _
    rw [flmIn]
    rcases lt_trichotomy j i with hlt | heq | hgt
    · -- earlier column: dominated by a recorded best, no update
      have hnup : ¬ bs < k :=
        not_lt.mpr (le_trans fact1 (hB2 j hgjw.1 hlt))
      rw [if_neg hnup]
      apply ih hpwrest hgoodrest (fun _ => hgi) _ bi bj bs hnj2N1 hnj2N2 ?_ hB1 hB2 ?_
      · rcases hN3 with hin | heqn
        · rcases List.mem_cons.mp hin with hii | hii
          · omega
          · exact Or.inl hii
        · refine Or.inr ?_
          simp only [if_neg (by omega : ¬ i = j)]
          exact heqn
      · rcases hD with hin | hle
        · rcases List.mem_cons.mp hin with hii | hii
          · omega
          · exact Or.inl hii
        · exact Or.inr hle
    · -- the diagonal entry: k equals the diagonal chain exactly
      subst heq
      have fact3 : k = dchain x lo hi j := by
        rw [dchain_of_good x lo hi j hgi]
        cases hj : j with
        | zero => simp [hk, hj]
        | succ m =>
          rw [hk, if_neg (show ¬ j = 0 by omega)]
          have h1 : j - 1 = m := by omega
          rw [h1, hR3 m hj]
          simp
      by_cases hup : bs < k
      · rw [if_pos hup]
        apply ih hpwrest hgoodrest (fun _ => hgi) _ _ _ _ hnj2N1 hnj2N2 ?_ rfl ?_ ?_
        · refine Or.inr ?_
          simp only [if_pos rfl]
          exact fact3
        · intro r hr1 hr2
          exact le_trans (le_trans (hB2 r hr1 hr2) (le_of_lt hup)) (le_refl k)
        · exact Or.inr (le_of_eq fact3.symm)
      · rw [if_neg hup]
        apply ih hpwrest hgoodrest (fun _ => hgi) _ bi bj bs hnj2N1 hnj2N2 ?_ hB1 hB2 ?_
        · refine Or.inr ?_
          simp only [if_pos rfl]
          exact fact3
        · exact Or.inr (by omega)
    · -- later column: the diagonal was already scanned, no update
      have hD' : dchain x lo hi i ≤ bs := by
        rcases hD with hin | hle
        · rcases List.mem_cons.mp hin with hii | hii
          · omega
          · exact absurd (hpwhead i hii) (by omega)
        · exact hle
      have hnup : ¬ bs < k := not_lt.mpr (le_trans fact2 hD')
      rw [if_neg hnup]
      apply ih hpwrest hgoodrest (fun _ => hgi) _ bi bj bs hnj2N1 hnj2N2 ?_ hB1 hB2 ?_
      · rcases hN3 with hin | heqn
        · rcases List.mem_cons.mp hin with hii | hii
          · omega
          · exact Or.inl hii
        · refine Or.inr ?_
          simp only [if_neg (by omega : ¬ i = j)]
          exact heqn
      · exact Or.inr hD'

lemma dchain_lt_lo (x : List Char) (lo hi m : ℕ) (h : m < lo) :
    dchain x lo hi m = 0 := by
  apply dchain_of_not_good
  have hnle : ¬ lo ≤ m := by omega
  simp [goodPos, hnle]

lemma flmRows_diag (x : List Char) (lo hi : ℕ) (hhi : hi ≤ x.length) :
    ∀ (n i : ℕ), lo ≤ i → i + n ≤ hi →
    ∀ (j2l : ℕ → ℕ),
      (i = 0 → ∀ j, j2l j = 0) →
      (∀ j, j2l j ≤ dchain x lo hi j) →
      (∀ j m, i = m + 1 → j2l j ≤ dchain x lo hi m) →
      (∀ m, i = m + 1 → j2l m = dchain x lo hi m) →
    ∀ (bi bj bs : ℕ), bi = bj →
      (∀ r, lo ≤ r → r < i → dchain x lo hi r ≤ bs) →
      (flmRows x x lo hi (List.range' i n) j2l (bi, bj, bs)).1
        = (flmRows x x lo hi (List.range' i n) j2l (bi, bj, bs)).2.1 := by
  intro n
  induction n with
  | zero =>
    intro i _ _ j2l _ _ _ _ bi bj bs hB1 _
    exact hB1
  | succ n ih =>
    intro i hi1 hin j2l hQ0 hQ1 hQ2 hQ3 bi bj bs hB1 hB2
    have hrow : List.range' i (n + 1) = i :: List.range' (i + 1) n := by
      rw [List.range'_succ]
    rw [hrow, flmRows]
    have hi2 : i < hi := by omega
    have hmemi : goodPos x lo hi i = true → i ∈ jList x x lo hi i := by
      intro hg
      have hg2 := hg
      simp only [goodPos, Bool.and_eq_true, decide_eq_true_eq] at hg2
      rw [jList, List.mem_filter]
      refine ⟨hg2.2, ?_⟩
      simp [hg2.1.1, hg2.1.2]
    have hN3D : i ∈ jList x x lo hi i ∨
        (0 = dchain x lo hi i ∧ dchain x lo hi i ≤ bs) := by
      by_cases hg : goodPos x lo hi i = true
      · exact Or.inl (hmemi hg)
      · have hz := dchain_of_not_good x lo hi i (by simpa using hg)
        exact Or.inr ⟨hz.symm, by omega⟩
    have hconc := flmIn_diag x lo hi i j2l hQ0 hQ1 hQ2 hQ3
      (jList x x lo hi i) (jList_pairwise x x lo hi i)
      (fun j hj => (jList_good x lo hi i j hj).1)
      (fun hne => by
        obtain ⟨j, hj⟩ := List.exists_mem_of_ne_nil _ hne
        exact good_row_of_mem x lo hi i j hj hi1 hi2 hhi)
      (fun _ => 0) bi bj bs (fun j => Nat.zero_le _) (fun j => Nat.zero_le _)
      (by rcases hN3D with h | h
          · exact Or.inl h
          · refine Or.inr ?_
            show (0:ℕ) = dchain x lo hi i
            exact h.1)
      hB1 hB2
      (by rcases hN3D with h | h
          · exact Or.inl h
          · exact Or.inr h.2)
    obtain ⟨hc1, hc2, hc3, hc4, hc5⟩ := hconc
    exact ih (i + 1) (by omega) (by omega) _
      (fun h => absurd h (Nat.succ_ne_zero i))
      hc1
      (fun j m hm => by
        have hmi : m = i := by omega
        subst hmi
        exact hc2 j)
      (fun m hm => by
        have hmi : m = i := by omega
        subst hmi
        exact hc3)
      _ _ _ hc4 hc5

lemma find_longest_match_diag (x : List Char) (lo hi : ℕ) (h1 : lo ≤ hi)
    (hhi : hi ≤ x.length) :
    find_longest_match x x lo hi lo hi = (lo, lo, hi - lo) := by
  have hinit : BlockOK x x lo hi lo hi lo lo 0 :=
    ⟨le_refl _, le_refl _, by omega, by omega, rfl⟩
  have hblock := flmRows_ok x x lo hi lo hi hhi hhi (hi - lo) lo (le_refl _)
    (by omega) (fun _ => 0) (readOK_zero x x lo lo hi lo) lo lo 0 hinit
  have hdiag := flmRows_diag x lo hi hhi (hi - lo) lo (le_refl _) (by omega)
    (fun _ => 0) (fun _ j => rfl) (fun j => Nat.zero_le _)
    (fun j m _ => Nat.zero_le _)
    (fun m hm => (dchain_lt_lo x lo hi m (by omega)).symm)
    lo lo 0 rfl (fun r hr1 hr2 => absurd hr2 (by omega))
  set d := flmRows x x lo hi (List.range' lo (hi - lo)) (fun _ => 0) (lo, lo, 0)
    with hd
  obtain ⟨hb1, hb2, hb3, hb4, hb5⟩ := hblock
  have hfl : find_longest_match x x lo hi lo hi
      = extendMatch x x lo hi lo hi d.1 d.2.1 d.2.2 := rfl
  rw [hfl]
  simp only [extendMatch]
  rw [← hdiag, commonTailLen_self, slice_length x lo d.1 hb1 (by omega)]
  have g1 : d.1 - (d.1 - lo) = lo := by omega
  rw [g1]
  have g2 : lo + (d.2.2 + (d.1 - lo)) = d.1 + d.2.2 := by omega
  rw [g2, commonRunLen_self, slice_length x (d.1 + d.2.2) hi hb3 hhi]
  have g3 : d.2.2 + (d.1 - lo) + (hi - (d.1 + d.2.2)) = hi - lo := by omega
  rw [g3]

/-! ### ratio lemmas -/

lemma matchingBlocksF_self_sum (x : List Char) (fuel lo hi : ℕ) (h1 : lo ≤ hi)
    (hhi : hi ≤ x.length) (hfuel : hi - lo ≤ fuel) :
    blockSizeSum (matchingBlocksF x x fuel lo hi lo hi) = hi - lo := by
  cases fuel with
  | zero =>
    have hz : hi - lo = 0 := by omega
    rw [hz]
    rfl
  | succ fuel =>
    have hflm := find_longest_match_diag x lo hi h1 hhi
    simp only [matchingBlocksF, hflm]
    by_cases hz : hi - lo = 0
    · rw [if_pos hz, blockSizeSum_nil, hz]
    · rw [if_neg hz, blockSizeSum_append, blockSizeSum_cons]
      have hp3 : ((lo, lo, hi - lo) : ℕ × ℕ × ℕ).2.2 = hi - lo := rfl
      rw [hp3]
      have g : lo + (hi - lo) = hi := by omega
      rw [g]
      have hL := (matchingBlocksF_bound x x fuel lo lo lo lo (le_refl _)
        (by omega) (le_refl _) (by omega) (by omega)).1
      have hR := (matchingBlocksF_bound x x fuel hi hi hi hi (le_refl _)
        hhi (le_refl _) hhi (by omega)).1
      omega

lemma pyRatio_self (x : List Char) : pyRatio x x = 1 := by
  rw [pyRatio]
  by_cases hx : x.length + x.length = 0
  · rw [if_pos hx]
  · rw [if_neg hx]
    have hsum : blockSizeSum (matchingBlocks x x) = x.length := by
      rw [matchingBlocks]
      exact matchingBlocksF_self_sum x x.length 0 x.length (Nat.zero_le _)
        (le_refl _) (by omega)
    rw [hsum]
    have hn : (0:ℚ) < ((x.length + x.length : ℕ) : ℚ) := by
      have : 0 < x.length + x.length := Nat.pos_of_ne_zero hx
      exact_mod_cast this
    rw [div_eq_one_iff_eq (ne_of_gt hn)]
    push_cast
    ring

lemma pyRatio_le_one (a b : List Char) : pyRatio a b ≤ 1 := by
  rw [pyRatio]
  by_cases h0 : a.length + b.length = 0
  · rw [if_pos h0]
  · rw [if_neg h0]
    obtain ⟨h1, h2, _⟩ := matchingBlocks_bound a b
    have hd : (0:ℚ) < ((a.length + b.length : ℕ) : ℚ) := by
      have : 0 < a.length + b.length := Nat.pos_of_ne_zero h0
      exact_mod_cast this
    rw [div_le_one hd]
    have hS : 2 * blockSizeSum (matchingBlocks a b) ≤ a.length + b.length := by
      omega
    exact_mod_cast hS

lemma pyRatio_eq_one_iff (a b : List Char) : pyRatio a b = 1 ↔ a = b := by
  constructor
  · intro h
    rw [pyRatio] at h
    by_cases h0 : a.length + b.length = 0
    · have ha : a = [] := List.eq_nil_of_length_eq_zero (by omega)
      have hb : b = [] := List.eq_nil_of_length_eq_zero (by omega)
      rw [ha, hb]
    · rw [if_neg h0] at h
      obtain ⟨h1, h2, h3⟩ := matchingBlocks_bound a b
      have hd : ((a.length + b.length : ℕ) : ℚ) ≠ 0 := by
        have : 0 < a.length + b.length := Nat.pos_of_ne_zero h0
        have : (0:ℚ) < ((a.length + b.length : ℕ) : ℚ) := by exact_mod_cast this
        exact ne_of_gt this
      rw [div_eq_one_iff_eq hd] at h
      have h2S : 2 * blockSizeSum (matchingBlocks a b) = a.length + b.length := by
        exact_mod_cast h
      exact h3 (by omega) (by omega)
  · intro h
    subst h
    exact pyRatio_self a

/-! ### Claim theorems: similarity -/

/-- C4 (amended): the similarity of any string with itself is 1.0 — for
every string, the empty string included: difflib defines the ratio of two
empty sequences as 1.0, not 0.0. -/
theorem similarity_self_eq_one (a : List Char) : simScore a a = 1 := by
  rw [simScore]
  exact pyRatio_self _

/-- C4 (counterexample): the similarity of the empty string with itself is
1.0, not 0.0 as claimed. -/
theorem similarity_empty_empty_cex :
    simScore ([] : List Char) [] = 1 ∧ (1:ℚ) ≠ 0 := ⟨by decide, by decide⟩

/-- C5 (amended): the similarity score is symmetric whenever the two
cleaned case-folded forms are equal; in general SequenceMatcher.ratio is
order-dependent, so symmetry fails for some inputs (see the
counterexample). -/
theorem similarity_symm_of_normalized_eq (a b : List Char)
    (h : pyLower (clean_district_name a) = pyLower (clean_district_name b)) :
    simScore a b = simScore b a := by
  rw [simScore, simScore, h]

/-- C5 (witness): two names with the same normalized form score
symmetrically. -/
theorem similarity_symm_of_normalized_eq_witness :
    pyLower (clean_district_name "Andijon tumani".toList)
      = pyLower (clean_district_name "Andijon shahri".toList) ∧
    simScore "Andijon tumani".toList "Andijon shahri".toList
      = simScore "Andijon shahri".toList "Andijon tumani".toList :=
  ⟨by decide, similarity_symm_of_normalized_eq _ _ (by decide)⟩

/-- C5 (counterexample): similarity("ab", "bacb") = 2/3 but
similarity("bacb", "ab") = 1/3 — SequenceMatcher.ratio is not symmetric. -/
theorem similarity_not_symmetric_cex :
    simScore "ab".toList "bacb".toList ≠ simScore "bacb".toList "ab".toList := by
  have e1 : simScore "ab".toList "bacb".toList = 2/3 := by
    rw [simScore, pyRatio, if_neg (by decide),
      (by decide : blockSizeSum (matchingBlocks
        (pyLower (clean_district_name "ab".toList))
        (pyLower (clean_district_name "bacb".toList))) = 2),
      (by decide : (pyLower (clean_district_name "ab".toList)).length
        + (pyLower (clean_district_name "bacb".toList)).length = 6)]
    norm_num
  have e2 : simScore "bacb".toList "ab".toList = 1/3 := by
    rw [simScore, pyRatio, if_neg (by decide),
      (by decide : blockSizeSum (matchingBlocks
        (pyLower (clean_district_name "bacb".toList))
        (pyLower (clean_district_name "ab".toList))) = 1),
      (by decide : (pyLower (clean_district_name "bacb".toList)).length
        + (pyLower (clean_district_name "ab".toList)).length = 6)]
    norm_num
  rw [e1, e2]
  norm_num

/-- C6: at threshold 1.0, find_best_match returns a match iff some
candidate's case-folded cleaned form is character-for-character equal to
the source's case-folded cleaned form. -/
theorem match_at_threshold_one_iff (src : List Char) (cands : List (List Char)) :
    (find_best_match src cands 1).1 ≠ none ↔
      ∃ c ∈ cands,
        pyLower (clean_district_name c) = pyLower (clean_district_name src) := by
  rcases find_best_match_spec src 1 cands with ⟨h1, h2⟩ |
    ⟨c, pre, post, h1, ht2, hdec, hpre, hpost⟩
  · rw [h1]
    simp only [ne_eq, not_true_eq_false, false_iff, not_exists]
    intro q hq
    have hsim : simScore src q = 1 := by
      rw [simScore, hq.2]
      exact pyRatio_self _
    exact h2 q hq.1 ⟨by rw [hsim]; norm_num, by rw [hsim]⟩
  · rw [h1]
    simp only [ne_eq, reduceCtorEq, not_false_eq_true, true_iff]
    refine ⟨c, by rw [hdec]; simp, ?_⟩
    have hle := pyRatio_le_one (pyLower (clean_district_name src))
      (pyLower (clean_district_name c))
    have heq1 : pyRatio (pyLower (clean_district_name src))
        (pyLower (clean_district_name c)) = 1 := by
      apply le_antisymm hle
      rw [simScore] at ht2
      exact ht2
    exact ((pyRatio_eq_one_iff _ _).mp heq1).symm

end DistrictMatch
